import Mathlib

/-!
Shallow embedding of the `KeyValueDB` class from `src/index.ts` together with
its helper `validateMigrationVersionNumbers` and the migration runner.

Modelling conventions:
* The async-storage collaborator is modelled as an association list from
  string keys to `Cell`s.  A `Cell` is either a value that JSON-decodes
  cleanly (`good o`), a stored string whose `JSON.parse` throws
  (`corrupt`), or a key whose `getItem` read itself throws (`readErr`).
  JSON round-tripping is lossless for plain data objects, so `good o`
  stores the decoded object directly.
* User-data values (`DBShape` members) are plain one-level JSON objects,
  modelled as association lists from field names to atomic values
  (`Obj`).  `Object.assign` is a left fold of field insertion, matching
  JS field-update order.
* JS numbers produced by `parseInt` are either integers or `NaN`; we model
  them as `Option Int` with `none` playing `NaN`.  `NaN` is falsy,
  compares false under `<=`/`>=`, and the ECMAScript sort treats a `NaN`
  comparator result as `0`.
* The private fields `#dbCache`, `#dbMetaCache` and `#dbInstallId` start
  out unset; `Option` models that (`none` = field unset, which is the
  only falsy case that can occur: the cache object `{}` and any `DBInfo`
  object are truthy in JS, and install ids are non-empty strings).
* Methods that can throw return their result wrapped so that the thrown
  case is explicit; the state component returned is the state at the
  point the exception escapes.
-/

namespace KVDB

/-- `DBInfo` from `src/types.ts`. -/
structure DBInfo where
  lastMigrationVersion : Int
  currUser : String
deriving DecidableEq, Repr

/-- A `Partial<DBInfo>` argument: fields that are absent from the object
literal are `none`. -/
structure PartialDBInfo where
  lastMigrationVersion : Option Int := none
  currUser : Option String := none
deriving DecidableEq, Repr

/-- `Object.assign` on a `DBInfo` target with a `Partial<DBInfo>` source. -/
def assignInfo (base : DBInfo) (p : PartialDBInfo) : DBInfo :=
  { lastMigrationVersion := p.lastMigrationVersion.getD base.lastMigrationVersion
    currUser := p.currUser.getD base.currUser }

/-- A plain one-level JSON object: field name to atomic value. -/
abbrev Obj := List (String × Nat)

/-- One async-storage slot for a user-data key. -/
inductive Cell where
  | good (o : Obj)
  | corrupt
  | readErr
deriving DecidableEq, Repr

/-- Association-list lookup (JS property access / `in` test). -/
def lookupKey {α : Type} : List (String × α) → String → Option α
  | [], _ => none
  | e :: rest, k => if e.1 = k then some e.2 else lookupKey rest k

/-- Association-list update: overwrite the entry if the key is present,
append it otherwise (JS property assignment order). -/
def setEntry {α : Type} : List (String × α) → String → α → List (String × α)
  | [], k, v => [(k, v)]
  | e :: rest, k, v => if e.1 = k then (k, v) :: rest else e :: setEntry rest k v

/-- Association-list removal (`delete obj[k]` / `AsyncStorage.removeItem`). -/
def delEntry {α : Type} : List (String × α) → String → List (String × α)
  | [], _ => []
  | e :: rest, k => if e.1 = k then rest else e :: delEntry rest k

/-- `Object.assign(target, source)` on plain objects: each source field is
written into the target in source order. -/
def assignObj (target source : Obj) : Obj :=
  source.foldl (fun acc e => setEntry acc e.1 e.2) target

/-- The whole observable state of one `KeyValueDB` instance together with
its backing async storage.  `metaStore` is the storage entry under the
reserved meta key (kept in parsed form), `installStore` the entry under
the reserved install-id key. -/
structure DBState where
  store : List (String × Cell)
  metaStore : Option DBInfo
  installStore : Option String
  metaCache : Option DBInfo
  installCache : Option String
  cache : Option (List (String × Obj))
  defaultMeta : DBInfo
deriving DecidableEq, Repr

/-- `getMeta`: cached meta if set, else load from storage (caching it),
else `undefined`. -/
def getMeta (s : DBState) : DBState × Option DBInfo :=
  match s.metaCache with
  | some m => (s, some m)
  | none =>
    match s.metaStore with
    | some j => ({ s with metaCache := some j }, some j)
    | none => (s, none)

/-- `putMeta`: merge the partial into the cached meta (starting from the
defaults when no meta is cached) and persist the full merged record. -/
def putMeta (s : DBState) (p : PartialDBInfo) : DBState :=
  let m := match s.metaCache with
    | none => assignInfo s.defaultMeta p
    | some mc => assignInfo mc p
  { s with metaCache := some m, metaStore := some m }

/-- The private `#init`: ensure the meta record exists (writing the
defaults when absent) and create an empty cache. -/
def init (s : DBState) : DBState :=
  let r := getMeta s
  let s2 := if r.2.isNone then
      putMeta r.1 ⟨some r.1.defaultMeta.lastMigrationVersion, some r.1.defaultMeta.currUser⟩
    else r.1
  { s2 with cache := some [] }

/-- `if (!this.#dbCache) await this.#init()` at the top of the data ops. -/
def ensureInit (s : DBState) : DBState :=
  if s.cache.isNone then init s else s

/-- The async `#makeUserKey`: reads `currUser` off the result of `getMeta`;
when `getMeta` yields `undefined` the property read throws (`none`). -/
def makeUserKey (s : DBState) (k : String) : DBState × Option String :=
  let r := getMeta s
  match r.2 with
  | some mi => (r.1, some (mi.currUser ++ ":" ++ k))
  | none => (r.1, none)

/-- The synchronous `#cacheMakeUserKey`: empty sentinel when the meta is
not cached or the cached `currUser` is empty. -/
def cacheMakeUserKey (s : DBState) (k : String) : String :=
  match s.metaCache with
  | some m => if m.currUser = "" then "" else m.currUser ++ ":" ++ k
  | none => ""

/-- `put`: `false` marks a thrown error.  The `!v` half of the guard can
never fire here because every `Obj` is a JS object and hence truthy. -/
def put (s : DBState) (k : String) (v : Obj) : DBState × Bool :=
  if k = "" then (s, false)
  else
    let s1 := ensureInit s
    let r := makeUserKey s1 k
    match r.2 with
    | none => (r.1, false)
    | some uk =>
      ({ r.1 with cache := some (setEntry (r.1.cache.getD []) uk v)
                  store := setEntry r.1.store uk (Cell.good v) }, true)

/-- Result of `get`: a thrown error, a value, or `undefined`. -/
inductive GetResult where
  | threw
  | value (o : Obj)
  | undef
deriving DecidableEq, Repr

/-- `get`: cache hit, else storage read; a failing read (`readErr`) or a
failing `JSON.parse` (`corrupt`) is caught and produces `undefined`. -/
def get (s : DBState) (k : String) : DBState × GetResult :=
  if k = "" then (s, GetResult.threw)
  else
    let s1 := ensureInit s
    let r := makeUserKey s1 k
    match r.2 with
    | none => (r.1, GetResult.threw)
    | some uk =>
      match lookupKey (r.1.cache.getD []) uk with
      | some v => (r.1, GetResult.value v)
      | none =>
        match lookupKey r.1.store uk with
        | some (Cell.good o) =>
          ({ r.1 with cache := some (setEntry (r.1.cache.getD []) uk o) }, GetResult.value o)
        | some Cell.corrupt => (r.1, GetResult.undef)
        | some Cell.readErr => (r.1, GetResult.undef)
        | none => (r.1, GetResult.undef)

/-- Result of `cacheGet`: a thrown error, `null`, `undefined`, or a value. -/
inductive CacheGetResult where
  | threw
  | nullv
  | undef
  | value (o : Obj)
deriving DecidableEq, Repr

/-- `cacheGet`: `null` when the cache is uninitialized or the cache-only
user key resolves to the empty sentinel; otherwise the raw indexed read,
which is `undefined` for a missing entry. -/
def cacheGet (s : DBState) (k : String) : CacheGetResult :=
  if k = "" then CacheGetResult.threw
  else
    match s.cache with
    | none => CacheGetResult.nullv
    | some c =>
      let uk := cacheMakeUserKey s k
      if uk = "" then CacheGetResult.nullv
      else
        match lookupKey c uk with
        | some v => CacheGetResult.value v
        | none => CacheGetResult.undef

/-- `del`: unconditional removal from cache and storage. -/
def del (s : DBState) (k : String) : DBState × Bool :=
  if k = "" then (s, false)
  else
    let s1 := ensureInit s
    let r := makeUserKey s1 k
    match r.2 with
    | none => (r.1, false)
    | some uk =>
      ({ r.1 with cache := some (delEntry (r.1.cache.getD []) uk)
                  store := delEntry r.1.store uk }, true)

/-- `update`: upsert an empty object into the cache if absent, shallow-merge
the partial into the cached object, but persist only the partial itself. -/
def update (s : DBState) (k : String) (p : Obj) : DBState × Bool :=
  if k = "" then (s, false)
  else
    let s1 := ensureInit s
    let r := makeUserKey s1 k
    match r.2 with
    | none => (r.1, false)
    | some uk =>
      let c := r.1.cache.getD []
      let merged := assignObj ((lookupKey c uk).getD []) p
      ({ r.1 with cache := some (setEntry c uk merged)
                  store := setEntry r.1.store uk (Cell.good p) }, true)

/-- `purgeCache`. -/
def purgeCache (s : DBState) : DBState :=
  { s with cache := some [] }

/-- `getInstallId`; the fresh UUID the crypto collaborator would produce is
passed in as an argument. -/
def getInstallId (s : DBState) (uuid : String) : DBState × String :=
  match s.installCache with
  | some id => (s, id)
  | none =>
    match s.installStore with
    | some id =>
      if id = "" then
        ({ s with installCache := some uuid, installStore := some uuid }, uuid)
      else ({ s with installCache := some id }, id)
    | none => ({ s with installCache := some uuid, installStore := some uuid }, uuid)

/-! ### The migration runner -/

/-- A JS number as produced by `parseInt`: an integer, or `NaN` (`none`). -/
abbrev JNum := Option Int

/-- Truthiness of a `JNum` (`0` and `NaN` are falsy). -/
def jsTruthyNum : JNum → Bool
  | some n => n ≠ 0
  | none => false

/-- The JS comparison `v <= 0` (false when `v` is `NaN`). -/
def jleZero : JNum → Bool
  | some n => n ≤ 0
  | none => false

/-- The JS comparison `m >= v` with an integer left side (false when `v`
is `NaN`). -/
def jgeIntJ (m : Int) : JNum → Bool
  | some n => n ≤ m
  | none => false

/-- Numeric value of a digit character. -/
def digitsToNat (ds : List Char) : Nat :=
  ds.foldl (fun a c => 10 * a + (c.toNat - 48)) 0

/-- `parseInt(s, 10)`: skip leading whitespace, optional sign, then the
maximal run of leading digits; `NaN` when that run is empty.  It never
throws, so the `try`/`catch` around it in the source is dead code. -/
def jsParseInt (s : String) : JNum :=
  let cs := s.data.dropWhile (fun c => c.isWhitespace)
  let sgn : Bool × List Char := match cs with
    | '-' :: r => (true, r)
    | '+' :: r => (false, r)
    | _ => (false, cs)
  let ds := sgn.2.takeWhile (fun c => c.isDigit)
  if ds.isEmpty then none
  else some (if sgn.1 then -(digitsToNat ds : Int) else (digitsToNat ds : Int))

/-- The property name a `JNum` turns into when used to index an object. -/
def jnumKey : JNum → String
  | some n => toString n
  | none => "NaN"

/-- The comparator `(a, b) => a - b` reports `a` strictly first; a `NaN`
comparator result counts as `0` per the ECMAScript sort semantics. -/
def jltNum : JNum → JNum → Bool
  | some x, some y => x < y
  | _, _ => false

/-- Stable insertion of one element into an ascending list. -/
def insertNum (x : JNum) : List JNum → List JNum
  | [] => [x]
  | y :: ys => if jltNum x y then x :: y :: ys else y :: insertNum x ys

/-- `Array.prototype.sort` with the comparator `(a, b) => a - b`, as a
stable insertion sort.  On the lists the theorems use (distinct genuine
integers) every stable sort agrees with this one. -/
def jsSortNums (l : List JNum) : List JNum :=
  l.foldl (fun acc x => insertNum x acc) []

/-- Result of `validateMigrationVersionNumbers`. -/
structure ValidationResult where
  passed : Bool
  sortedVersions : List JNum
deriving DecidableEq, Repr

/-- `validateMigrationVersionNumbers`: parse every key, then test
`vArray.find((v) => v <= 0)` for truthiness.  A found element `0` is
falsy, so it does not trip the check, and `NaN` never satisfies
`v <= 0`; only a genuinely negative parsed key makes validation fail. -/
def validateMigrationVersionNumbers (allVersions : List String) : ValidationResult :=
  let vArray := allVersions.map jsParseInt
  match vArray.find? (fun v => jleZero v) with
  | some f =>
    if jsTruthyNum f then ⟨false, []⟩
    else ⟨true, jsSortNums vArray⟩
  | none => ⟨true, jsSortNums vArray⟩

/-- A migration function: the state transformation it performs on the db
it is handed, and the success flag it reports, both as functions of the
state at the call. -/
structure MigFn where
  name : String
  run : DBState → DBState
  ok : DBState → Bool

/-- A migration function table, in `Object.keys` enumeration order. -/
abbrev MigTable := List (String × List MigFn)

/-- Run the functions of one version in list order, extending the
execution trace and, on a `false` report, the error log. -/
def runFns : List MigFn → DBState → List String → List String →
    DBState × List String × List String
  | [], s, tr, el => (s, tr, el)
  | f :: rest, s, tr, el =>
    runFns rest (f.run s) (tr ++ [f.name]) (if f.ok s then el else el ++ [f.name])

/-- The value the loop's `storedMeta.lastMigrationVersion` read sees:
`storedMeta` aliases the cached meta object (and `putMeta` mutates that
object in place), so the read tracks the current cached meta; `j` is the
snapshot value, only reachable if something external unset the cache. -/
def currentLmv (s : DBState) (j : Int) : Int :=
  match s.metaCache with
  | some m => m.lastMigrationVersion
  | none => j

/-- Outcome of the version loop inside `migrate`. -/
structure LoopRes where
  state : DBState
  lmv : JNum
  trace : List String
  errLog : List String
  threw : Bool
deriving Repr

/-- The `for (const v of sortedVersions)` loop: skip versions the stored
meta already covers; otherwise look the version up in the table by its
property name — iterating a missing entry (`undefined`) throws, which the
surrounding `catch` turns into a `false` return. -/
def migLoop (t : MigTable) (j : Int) :
    List JNum → DBState → JNum → List String → List String → LoopRes
  | [], s, lmv, tr, el => ⟨s, lmv, tr, el, false⟩
  | v :: rest, s, lmv, tr, el =>
    if jgeIntJ (currentLmv s j) v then migLoop t j rest s lmv tr el
    else
      match lookupKey t (jnumKey v) with
      | none => ⟨s, lmv, tr, el, true⟩
      | some fns =>
        let r := runFns fns s tr el
        migLoop t j rest r.1 v r.2.1 r.2.2

/-- Observable outcome of one `migrate` call: final state, the executed
functions in call order, the names logged after a `false` report, and the
returned boolean. -/
structure MigRes where
  state : DBState
  trace : List String
  errLog : List String
  ok : Bool
deriving Repr, DecidableEq

/-- `migrate`.  `none` for the table models a falsy argument.  An empty
table only logs informationally and falls through to the loop. -/
def migrate (t? : Option MigTable) (s : DBState) : MigRes :=
  match t? with
  | none => ⟨s, [], [], false⟩
  | some t =>
    let r := getMeta s
    match r.2 with
    | none => ⟨r.1, [], [], false⟩
    | some m0 =>
      let vr := validateMigrationVersionNumbers (t.map Prod.fst)
      if !vr.passed then ⟨r.1, [], [], false⟩
      else
        let lr := migLoop t m0.lastMigrationVersion vr.sortedVersions r.1 (some 0) [] []
        if lr.threw then ⟨lr.state, lr.trace, lr.errLog, false⟩
        else
          let s2 := if jsTruthyNum lr.lmv then
              putMeta lr.state ⟨lr.lmv, none⟩
            else lr.state
          ⟨s2, lr.trace, lr.errLog, true⟩

/-! ### Association-list lemmas -/

theorem lookupKey_setEntry_self {α : Type} (l : List (String × α)) (k : String) (v : α) :
    lookupKey (setEntry l k v) k = some v := by
  induction l with
  | nil => simp [setEntry, lookupKey]
  | cons e rest ih =>
    by_cases h : e.1 = k
    · simp [setEntry, lookupKey, h]
    · simp [setEntry, lookupKey, h, ih]

theorem lookupKey_setEntry_ne {α : Type} (l : List (String × α)) (k k' : String) (v : α)
    (h : k' ≠ k) : lookupKey (setEntry l k v) k' = lookupKey l k' := by
  have hkk : ¬ k = k' := fun hh => h hh.symm
  induction l with
  | nil => simp [setEntry, lookupKey, hkk]
  | cons e rest ih =>
    by_cases he : e.1 = k
    · have he' : ¬ e.1 = k' := by rw [he]; exact hkk
      simp [setEntry, lookupKey, he, hkk, he']
    · by_cases he' : e.1 = k'
      · simp [setEntry, lookupKey, he, he', h]
      · simp [setEntry, lookupKey, he, he', ih]

theorem lookupKey_mem {α : Type} {l : List (String × α)} {k : String} {v : α}
    (h : lookupKey l k = some v) : (k, v) ∈ l := by
  induction l with
  | nil => simp [lookupKey] at h
  | cons e rest ih =>
    by_cases he : e.1 = k
    · simp [lookupKey, he] at h
      have hev : e = (k, v) := by
        cases e with
        | mk a b => simp only at he h; rw [← he, ← h]
      rw [hev]
      exact List.mem_cons_self _ _
    · simp [lookupKey, he] at h
      exact List.mem_cons_of_mem _ (ih h)

/-! ### State lemmas used by the data-operation theorems -/

theorem getMeta_cached {s : DBState} {m : DBInfo} (hm : s.metaCache = some m) :
    getMeta s = (s, some m) := by
  simp [getMeta, hm]

theorem ensureInit_cached {s : DBState} {c : List (String × Obj)} (hc : s.cache = some c) :
    ensureInit s = s := by
  simp [ensureInit, hc]

theorem makeUserKey_cached {s : DBState} {m : DBInfo} (hm : s.metaCache = some m)
    (k : String) : makeUserKey s k = (s, some (m.currUser ++ ":" ++ k)) := by
  simp [makeUserKey, getMeta_cached hm]

theorem put_eq {s : DBState} {m : DBInfo} {c : List (String × Obj)}
    (hm : s.metaCache = some m) (hc : s.cache = some c) {k : String} (hk : k ≠ "")
    (v : Obj) :
    put s k v =
      ({ s with cache := some (setEntry c (m.currUser ++ ":" ++ k) v)
                store := setEntry s.store (m.currUser ++ ":" ++ k) (Cell.good v) }, true) := by
  simp [put, hk, ensureInit_cached hc, makeUserKey_cached hm, hc]

theorem update_eq {s : DBState} {m : DBInfo} {c : List (String × Obj)}
    (hm : s.metaCache = some m) (hc : s.cache = some c) {k : String} (hk : k ≠ "")
    (p : Obj) :
    update s k p =
      ({ s with cache := some (setEntry c (m.currUser ++ ":" ++ k)
                  (assignObj ((lookupKey c (m.currUser ++ ":" ++ k)).getD []) p))
                store := setEntry s.store (m.currUser ++ ":" ++ k) (Cell.good p) }, true) := by
  simp [update, hk, ensureInit_cached hc, makeUserKey_cached hm, hc]

theorem get_cache_hit {s : DBState} {m : DBInfo} {c : List (String × Obj)}
    (hm : s.metaCache = some m) (hc : s.cache = some c) {k : String} (hk : k ≠ "")
    {v : Obj} (hv : lookupKey c (m.currUser ++ ":" ++ k) = some v) :
    get s k = (s, GetResult.value v) := by
  simp [get, hk, ensureInit_cached hc, makeUserKey_cached hm, hc, hv]

theorem get_store_hit {s : DBState} {m : DBInfo} {c : List (String × Obj)}
    (hm : s.metaCache = some m) (hc : s.cache = some c) {k : String} (hk : k ≠ "")
    (hmiss : lookupKey c (m.currUser ++ ":" ++ k) = none)
    {o : Obj} (ho : lookupKey s.store (m.currUser ++ ":" ++ k) = some (Cell.good o)) :
    get s k =
      ({ s with cache := some (setEntry c (m.currUser ++ ":" ++ k) o) }, GetResult.value o) := by
  simp [get, hk, ensureInit_cached hc, makeUserKey_cached hm, hc, hmiss, ho]

/-! ### Shared concrete instances for witnesses -/

/-- The default meta object the test-suite uses. -/
def guestMeta : DBInfo := ⟨0, "guest"⟩

/-- A freshly initialized store: meta persisted and cached, empty cache. -/
def baseState : DBState := ⟨[], some guestMeta, none, some guestMeta, none, some [], guestMeta⟩

/-! ### Claim C9: put/get round trip -/

/-- C9: on an initialized store, `put(k, v)` succeeds, leaves the cache
holding `v` under the namespaced key, and a subsequent `get(k)` returns a
value equal to `v` — both straight from the cache and, after a
`purgeCache()`, by repopulating the cache from the store with the same
value. -/
theorem put_get_roundtrip {s : DBState} {m : DBInfo} {c : List (String × Obj)}
    (hm : s.metaCache = some m) (hc : s.cache = some c)
    (k : String) (v : Obj) (hk : k ≠ "") :
    (put s k v).2 = true ∧
    lookupKey ((put s k v).1.cache.getD []) (m.currUser ++ ":" ++ k) = some v ∧
    get (put s k v).1 k = ((put s k v).1, GetResult.value v) ∧
    (get (purgeCache (put s k v).1) k).2 = GetResult.value v ∧
    lookupKey ((get (purgeCache (put s k v).1) k).1.cache.getD [])
      (m.currUser ++ ":" ++ k) = some v := by
  rw [put_eq hm hc hk v]
  refine ⟨rfl, ?_, ?_, ?_, ?_⟩
  · simpa using lookupKey_setEntry_self c (m.currUser ++ ":" ++ k) v
  · simp [get, hk, ensureInit, makeUserKey, getMeta, hm, lookupKey_setEntry_self]
  · simp [get, purgeCache, hk, ensureInit, makeUserKey, getMeta, hm,
      lookupKey, lookupKey_setEntry_self]
  · simp [get, purgeCache, hk, ensureInit, makeUserKey, getMeta, hm,
      lookupKey, lookupKey_setEntry_self]

/-- Witness for C9 at the test-suite's own input. -/
theorem put_get_roundtrip_witness :
    (put baseState "testing" [("ver", 3)]).2 = true ∧
    lookupKey ((put baseState "testing" [("ver", 3)]).1.cache.getD []) ("guest" ++ ":" ++ "testing")
      = some [("ver", 3)] ∧
    get (put baseState "testing" [("ver", 3)]).1 "testing"
      = ((put baseState "testing" [("ver", 3)]).1, GetResult.value [("ver", 3)]) ∧
    (get (purgeCache (put baseState "testing" [("ver", 3)]).1) "testing").2
      = GetResult.value [("ver", 3)] ∧
    lookupKey ((get (purgeCache (put baseState "testing" [("ver", 3)]).1) "testing").1.cache.getD [])
      ("guest" ++ ":" ++ "testing") = some [("ver", 3)] :=
  put_get_roundtrip rfl rfl "testing" [("ver", 3)] (by decide)

/-! ### Claim C7: update merges the cache but persists only the partial -/

/-- C7: `update(k, p)` shallow-merges `p` into the cached object (so a
`get(k)` with no intervening purge serves the merged object from the
cache) but writes only `p` itself to the store, so that after a cache
purge a fresh `get(k)` returns just the last partial fragment. -/
theorem update_merges_cache_persists_partial {s : DBState} {m : DBInfo}
    {c : List (String × Obj)} (hm : s.metaCache = some m) (hc : s.cache = some c)
    (k : String) (p : Obj) (hk : k ≠ "") :
    (update s k p).2 = true ∧
    lookupKey ((update s k p).1.cache.getD []) (m.currUser ++ ":" ++ k)
      = some (assignObj ((lookupKey c (m.currUser ++ ":" ++ k)).getD []) p) ∧
    get (update s k p).1 k = ((update s k p).1,
      GetResult.value (assignObj ((lookupKey c (m.currUser ++ ":" ++ k)).getD []) p)) ∧
    lookupKey (update s k p).1.store (m.currUser ++ ":" ++ k) = some (Cell.good p) ∧
    (get (purgeCache (update s k p).1) k).2 = GetResult.value p := by
  rw [update_eq hm hc hk p]
  refine ⟨rfl, ?_, ?_, ?_, ?_⟩
  · simpa using lookupKey_setEntry_self c (m.currUser ++ ":" ++ k) _
  · simp [get, hk, ensureInit, makeUserKey, getMeta, hm, lookupKey_setEntry_self]
  · simpa using lookupKey_setEntry_self s.store (m.currUser ++ ":" ++ k) (Cell.good p)
  · simp [get, purgeCache, hk, ensureInit, makeUserKey, getMeta, hm,
      lookupKey, lookupKey_setEntry_self]

/-- Witness for C7: merging `{b: 9}` over a stored `{a: 1, b: 2}` serves
the merged object from the cache, while the store keeps only the partial,
which is what `get` returns after a purge — and the two differ. -/
theorem update_merges_cache_persists_partial_witness :
    (update (put baseState "bigobj" [("a", 1), ("b", 2)]).1 "bigobj" [("b", 9)]).2 = true ∧
    lookupKey ((update (put baseState "bigobj" [("a", 1), ("b", 2)]).1 "bigobj" [("b", 9)]).1.cache.getD [])
      ("guest" ++ ":" ++ "bigobj") = some [("a", 1), ("b", 9)] ∧
    (get (update (put baseState "bigobj" [("a", 1), ("b", 2)]).1 "bigobj" [("b", 9)]).1 "bigobj").2
      = GetResult.value [("a", 1), ("b", 9)] ∧
    lookupKey (update (put baseState "bigobj" [("a", 1), ("b", 2)]).1 "bigobj" [("b", 9)]).1.store
      ("guest" ++ ":" ++ "bigobj") = some (Cell.good [("b", 9)]) ∧
    (get (purgeCache (update (put baseState "bigobj" [("a", 1), ("b", 2)]).1 "bigobj" [("b", 9)]).1) "bigobj").2
      = GetResult.value [("b", 9)] ∧
    ([("a", 1), ("b", 9)] : Obj) ≠ [("b", 9)] := by
  obtain ⟨h1, h2, h3, h4, h5⟩ := update_merges_cache_persists_partial
    (s := (put baseState "bigobj" [("a", 1), ("b", 2)]).1)
    (m := guestMeta) (c := [("guest:bigobj", [("a", 1), ("b", 2)])])
    (by decide) (by decide) "bigobj" [("b", 9)] (by decide)
  refine ⟨h1, ?_, ?_, h4, h5, by decide⟩
  · exact h2
  · rw [h3]
    decide

/-! ### Claim C8: read/parse failures are swallowed by get -/

/-- C8: when the namespaced key is not in the cache and the store holds a
corrupt entry, an entry whose read throws, or no entry at all, `get(k)`
returns `undefined` with the state untouched — the three situations give
literally identical results, so a caller cannot tell a never-stored key
from a store or decode error. -/
theorem get_read_errors_swallowed {s : DBState} {m : DBInfo} {c : List (String × Obj)}
    (hm : s.metaCache = some m) (hc : s.cache = some c) (k : String) (hk : k ≠ "")
    (hmiss : lookupKey c (m.currUser ++ ":" ++ k) = none)
    (herr : lookupKey s.store (m.currUser ++ ":" ++ k) = some Cell.corrupt ∨
            lookupKey s.store (m.currUser ++ ":" ++ k) = some Cell.readErr ∨
            lookupKey s.store (m.currUser ++ ":" ++ k) = none) :
    get s k = (s, GetResult.undef) := by
  rcases herr with h | h | h <;>
    simp [get, hk, ensureInit_cached hc, makeUserKey_cached hm, hc, hmiss, h]

/-- Witness for C8: a corrupt entry, an entry whose read throws, and a
missing entry all produce the same `undefined` answer. -/
theorem get_read_errors_swallowed_witness :
    get { baseState with store := [("guest:bad", Cell.corrupt)] } "bad"
      = ({ baseState with store := [("guest:bad", Cell.corrupt)] }, GetResult.undef) ∧
    get { baseState with store := [("guest:bad", Cell.readErr)] } "bad"
      = ({ baseState with store := [("guest:bad", Cell.readErr)] }, GetResult.undef) ∧
    get baseState "bad" = (baseState, GetResult.undef) :=
  ⟨get_read_errors_swallowed rfl rfl "bad" (by decide) (by decide) (Or.inl (by decide)),
   get_read_errors_swallowed rfl rfl "bad" (by decide) (by decide) (Or.inr (Or.inl (by decide))),
   get_read_errors_swallowed rfl rfl "bad" (by decide) (by decide) (Or.inr (Or.inr (by decide)))⟩

/-! ### Claim C10: cacheGet's null / undefined distinction -/

/-- C10: with an initialized cache and a cached meta whose `currUser` is
non-empty, `cacheGet` answers a missing entry with `undefined`, never
`null`; and whenever the cached meta is absent or its `currUser` is
empty, `cacheGet` answers `null`, even if the cache holds an entry under
`':' + k`. -/
theorem cacheGet_null_vs_undefined (s : DBState) (k : String) (hk : k ≠ "") :
    (∀ m c, s.metaCache = some m → m.currUser ≠ "" → s.cache = some c →
      lookupKey c (m.currUser ++ ":" ++ k) = none →
      cacheGet s k = CacheGetResult.undef) ∧
    ((s.metaCache = none ∨ ∃ m, s.metaCache = some m ∧ m.currUser = "") →
      cacheGet s k = CacheGetResult.nullv) := by
  constructor
  · intro m c hm hu hc hmiss
    have huk : ¬ (m.currUser ++ ":" ++ k) = "" := by
      intro h
      have hlen := congrArg String.length h
      rw [String.length_append, String.length_append] at hlen
      have hone : (":").length = 1 := rfl
      have hzero : ("" : String).length = 0 := rfl
      omega
    simp [cacheGet, hk, hc, cacheMakeUserKey, hm, hu, huk, hmiss]
  · intro h
    cases hc : s.cache with
    | none => simp [cacheGet, hk, hc]
    | some c =>
      rcases h with h | ⟨m, hm, hu⟩
      · simp [cacheGet, hk, hc, cacheMakeUserKey, h]
      · simp [cacheGet, hk, hc, cacheMakeUserKey, hm, hu]

/-- Witness for C10: a missing entry on an initialized store reads as
`undefined`, while an empty `currUser` reads as `null` even though the
cache holds `":missing"`. -/
theorem cacheGet_null_vs_undefined_witness :
    cacheGet baseState "missing" = CacheGetResult.undef ∧
    cacheGet ⟨[], none, none, some ⟨0, ""⟩, none, some [(":missing", [("a", 1)])], guestMeta⟩
      "missing" = CacheGetResult.nullv :=
  ⟨(cacheGet_null_vs_undefined baseState "missing" (by decide)).1 guestMeta []
      rfl (by decide) rfl (by decide),
   (cacheGet_null_vs_undefined _ "missing" (by decide)).2 (Or.inr ⟨⟨0, ""⟩, rfl, rfl⟩)⟩

/-! ### Migration helper lemmas -/

theorem mem_insertNum {x y : JNum} : ∀ {l : List JNum}, y ∈ insertNum x l ↔ y = x ∨ y ∈ l := by
  intro l
  induction l with
  | nil => simp [insertNum]
  | cons z zs ih =>
    by_cases h : jltNum x z
    · simp [insertNum, h]
    · simp [insertNum, h, ih]
      tauto

theorem mem_sort_aux {y : JNum} :
    ∀ (l acc : List JNum),
      (y ∈ l.foldl (fun a x => insertNum x a) acc ↔ y ∈ l ∨ y ∈ acc) := by
  intro l
  induction l with
  | nil => simp
  | cons x xs ih =>
    intro acc
    simp only [List.foldl_cons, ih (insertNum x acc), mem_insertNum, List.mem_cons]
    tauto

theorem mem_jsSortNums {y : JNum} {l : List JNum} : y ∈ jsSortNums l ↔ y ∈ l := by
  simpa [jsSortNums] using mem_sort_aux (y := y) l []

theorem validate_passed_of_pos {l : List String}
    (h : ∀ k ∈ l, ∃ n : Int, jsParseInt k = some n ∧ 1 ≤ n) :
    validateMigrationVersionNumbers l = ⟨true, jsSortNums (l.map jsParseInt)⟩ := by
  have hfind : (l.map jsParseInt).find? (fun v => jleZero v) = none := by
    rw [List.find?_eq_none]
    intro x hx
    rw [List.mem_map] at hx
    obtain ⟨k, hk, rfl⟩ := hx
    obtain ⟨n, hn, hpos⟩ := h k hk
    simp [hn, jleZero]
    omega
  simp only [validateMigrationVersionNumbers, hfind]

theorem migLoop_all_skipped {t : MigTable} {j : Int} {m : DBInfo} :
    ∀ (vs : List JNum) (s : DBState) (lmv : JNum) (tr el : List String),
      s.metaCache = some m →
      (∀ v ∈ vs, jgeIntJ m.lastMigrationVersion v = true) →
      migLoop t j vs s lmv tr el = ⟨s, lmv, tr, el, false⟩ := by
  intro vs
  induction vs with
  | nil => intro s lmv tr el _ _; rfl
  | cons v rest ih =>
    intro s lmv tr el hm h
    have hv := h v (List.mem_cons_self _ _)
    have hcur : currentLmv s j = m.lastMigrationVersion := by simp [currentLmv, hm]
    simp only [migLoop, hcur, hv, if_true]
    exact ih s lmv tr el hm (fun u hu => h u (List.mem_cons_of_mem _ hu))

/-! ### Claim C1: a non-positive version key (the key 0) -/

/-- A trivially succeeding migration function for concrete runs. -/
def migA : MigFn := ⟨"migration1", fun u => u, fun _ => true⟩

/-- C1 (evaluating the code at the failing input): on an initialized
store, a migration table whose only key is `0` — a non-positive version
key — makes `migrate` return `true`, not `false` as specified: the
validator's `vArray.find((v) => v <= 0)` returns the element `0` itself,
which is falsy, so validation passes.  No migration function runs and the
stored version is unchanged, but the reported result is success. -/
theorem migrate_zero_version_key_accepted :
    migrate (some [("0", [migA])]) baseState = ⟨baseState, [], [], true⟩ ∧
    (validateMigrationVersionNumbers ["0"]).passed = true := by
  exact ⟨rfl, rfl⟩

/-! ### Claim C2: empty or absent migration table -/

/-- C2 counterexample: on an initialized store, `migrate` with an empty
migration table returns `true`, not `false` as the claim states. -/
theorem migrate_empty_table_returns_true_cex :
    (migrate (some []) baseState).ok = true := rfl

/-- C2 (amended): a falsy (absent) table makes `migrate` return `false`
with nothing executed; an empty table makes it return `false` only when
the store has no metadata record, while on an initialized store the
empty-table call logs informationally, executes nothing, changes nothing,
and returns `true`. -/
theorem migrate_empty_or_absent_table (s : DBState) :
    migrate none s = ⟨s, [], [], false⟩ ∧
    ((getMeta s).2 = none → migrate (some []) s = ⟨s, [], [], false⟩) ∧
    (∀ m, (getMeta s).2 = some m → migrate (some []) s = ⟨(getMeta s).1, [], [], true⟩) := by
  refine ⟨rfl, ?_, ?_⟩
  · intro h
    cases hc : s.metaCache with
    | some m =>
      rw [getMeta_cached hc] at h
      simp at h
    | none =>
      cases hms : s.metaStore with
      | some j =>
        have : getMeta s = ({ s with metaCache := some j }, some j) := by
          unfold getMeta
          rw [hc, hms]
        rw [this] at h
        simp at h
      | none =>
        have hg : getMeta s = (s, none) := by
          unfold getMeta
          rw [hc, hms]
        simp only [migrate, hg]
  · intro m h
    cases hg : getMeta s with
    | mk s1 r2 =>
      have h2 : r2 = some m := by rw [hg] at h; exact h
      subst h2
      simp only [migrate, hg]
      rfl

/-- Witness for C2 (amended) at an initialized store. -/
theorem migrate_empty_or_absent_table_witness :
    migrate (some []) baseState = ⟨baseState, [], [], true⟩ :=
  (migrate_empty_or_absent_table baseState).2.2 guestMeta rfl

/-! ### Claim C4: tables at or below the stored version are no-ops -/

/-- C4: on an initialized store whose stored `lastMigrationVersion` is
`N`, a valid migration table all of whose version keys are at most `N`
makes `migrate` execute zero migration functions, leave the state — and
so the stored `lastMigrationVersion` — completely unchanged, and return
`true`: re-applying already-applied migrations is a no-op and never
regresses the version. -/
theorem migrate_idempotent_noop {s : DBState} {m : DBInfo}
    (hm : s.metaCache = some m) (_hms : s.metaStore = some m) (t : MigTable)
    (hkeys : ∀ e ∈ t, ∃ n : Int,
      jsParseInt e.1 = some n ∧ 1 ≤ n ∧ n ≤ m.lastMigrationVersion) :
    migrate (some t) s = ⟨s, [], [], true⟩ := by
  have hval := validate_passed_of_pos (l := t.map Prod.fst) (by
    intro k hk
    rw [List.mem_map] at hk
    obtain ⟨e, he, rfl⟩ := hk
    obtain ⟨n, hn, hpos, _⟩ := hkeys e he
    exact ⟨n, hn, hpos⟩)
  have hloop := migLoop_all_skipped (t := t) (j := m.lastMigrationVersion)
    (m := m) (jsSortNums ((t.map Prod.fst).map jsParseInt)) s (some 0) [] [] hm (by
      intro v hv
      rw [mem_jsSortNums, List.mem_map] at hv
      obtain ⟨k, hk, rfl⟩ := hv
      rw [List.mem_map] at hk
      obtain ⟨e, he, rfl⟩ := hk
      obtain ⟨n, hn, _, hle⟩ := hkeys e he
      simp [hn, jgeIntJ]
      omega)
  simp only [migrate, getMeta_cached hm, hval, hloop]
  rfl

/-- Witness for C4: a store at version 5 with a table of versions 1 and 5. -/
theorem migrate_idempotent_noop_witness :
    migrate (some [("1", [migA]), ("5", [migA])])
        ⟨[], some ⟨5, "guest"⟩, none, some ⟨5, "guest"⟩, none, some [], guestMeta⟩
      = ⟨⟨[], some ⟨5, "guest"⟩, none, some ⟨5, "guest"⟩, none, some [], guestMeta⟩, [], [], true⟩ :=
  migrate_idempotent_noop rfl rfl _ (by
    intro e he
    rw [List.mem_cons] at he
    rcases he with rfl | he
    · exact ⟨1, by decide⟩
    · rw [List.mem_singleton] at he
      subst he
      exact ⟨5, by decide⟩)

/-! ### Vocabulary for the ordering claims -/

/-- A migration function is meta-framed when running it does not touch the
cached meta record (it may read and write user data freely). -/
def metaFrame (f : MigFn) : Prop := ∀ u, (f.run u).metaCache = u.metaCache

/-- The function list the loop body fetches for a version. -/
def versionFns (t : MigTable) (v : JNum) : List MigFn := (lookupKey t (jnumKey v)).getD []

def concatMap {α β : Type} (f : α → List β) : List α → List β
  | [] => []
  | x :: xs => f x ++ concatMap f xs

/-- The version sequence `migrate` iterates for table `t`. -/
def sortedTableVersions (t : MigTable) : List JNum :=
  jsSortNums ((t.map Prod.fst).map jsParseInt)

/-- The versions a run from stored version `lastV` actually processes. -/
def newVersions (t : MigTable) (lastV : Int) : List JNum :=
  (sortedTableVersions t).filter (fun v => !jgeIntJ lastV v)

/-- The migration-function names a run from stored version `lastV` should
execute, in order: ascending by version, list order within a version. -/
def plannedTrace (t : MigTable) (lastV : Int) : List String :=
  concatMap (fun v => (versionFns t v).map (fun f => f.name)) (newVersions t lastV)

def lastD {α : Type} : List α → α → α
  | [], d => d
  | [x], _ => x
  | _ :: y :: ys, d => lastD (y :: ys) d

theorem lastD_default_irrel {α : Type} : ∀ (y : α) (ys : List α) (d d' : α),
    lastD (y :: ys) d = lastD (y :: ys) d' := by
  intro y ys
  induction ys generalizing y with
  | nil => intro d d'; rfl
  | cons z zs ih =>
    intro d d'
    show lastD (z :: zs) d = lastD (z :: zs) d'
    exact ih z d d'

/-! ### runFns lemmas -/

theorem runFns_trace : ∀ (fns : List MigFn) (s : DBState) (tr el : List String),
    (runFns fns s tr el).2.1 = tr ++ fns.map (fun f => f.name) := by
  intro fns
  induction fns with
  | nil => intro s tr el; simp [runFns]
  | cons f rest ih =>
    intro s tr el
    simp [runFns, ih, List.append_assoc]

theorem runFns_metaCache : ∀ (fns : List MigFn) (s : DBState) (tr el : List String),
    (∀ f ∈ fns, metaFrame f) → (runFns fns s tr el).1.metaCache = s.metaCache := by
  intro fns
  induction fns with
  | nil => intro s tr el _; rfl
  | cons f rest ih =>
    intro s tr el h
    have hf := h f (List.mem_cons_self _ _)
    rw [runFns, ih _ _ _ (fun g hg => h g (List.mem_cons_of_mem _ hg))]
    exact hf s

theorem runFns_errLog_sub : ∀ (fns : List MigFn) (s : DBState) (tr el : List String)
    (x : String), x ∈ el → x ∈ (runFns fns s tr el).2.2 := by
  intro fns
  induction fns with
  | nil => intro s tr el x hx; exact hx
  | cons f rest ih =>
    intro s tr el x hx
    rw [runFns]
    apply ih
    by_cases hok : f.ok s
    · simpa [hok] using hx
    · simp [hok]
      exact Or.inl hx

theorem runFns_errLog_mem : ∀ (fns : List MigFn) (s : DBState) (tr el : List String)
    {f : MigFn}, f ∈ fns → (∀ u, f.ok u = false) → f.name ∈ (runFns fns s tr el).2.2 := by
  intro fns
  induction fns with
  | nil => intro s tr el f hf _; cases hf
  | cons g rest ih =>
    intro s tr el f hf hfail
    rw [List.mem_cons] at hf
    rw [runFns]
    rcases hf with rfl | hf
    · apply runFns_errLog_sub
      simp [hfail s]
    · exact ih _ _ _ hf hfail

/-! ### migLoop lemmas -/

theorem migLoop_spec {t : MigTable} {j : Int} {m : DBInfo} :
    ∀ (vs : List JNum) (s : DBState) (lmv : JNum) (tr el : List String),
      s.metaCache = some m →
      (∀ v ∈ vs, (!jgeIntJ m.lastMigrationVersion v) = true →
        (lookupKey t (jnumKey v)).isSome = true ∧ ∀ f ∈ versionFns t v, metaFrame f) →
      (migLoop t j vs s lmv tr el).threw = false ∧
      (migLoop t j vs s lmv tr el).state.metaCache = some m ∧
      (migLoop t j vs s lmv tr el).trace
        = tr ++ concatMap (fun v => (versionFns t v).map (fun f => f.name))
            (vs.filter (fun v => !jgeIntJ m.lastMigrationVersion v)) ∧
      (migLoop t j vs s lmv tr el).lmv
        = lastD (vs.filter (fun v => !jgeIntJ m.lastMigrationVersion v)) lmv := by
  intro vs
  induction vs with
  | nil =>
    intro s lmv tr el hm _
    exact ⟨rfl, hm, by simp [migLoop, concatMap], rfl⟩
  | cons v rest ih =>
    intro s lmv tr el hm h
    have hcur : currentLmv s j = m.lastMigrationVersion := by simp [currentLmv, hm]
    have hrest : ∀ u ∈ rest, (!jgeIntJ m.lastMigrationVersion u) = true →
        (lookupKey t (jnumKey u)).isSome = true ∧ ∀ f ∈ versionFns t u, metaFrame f :=
      fun u hu => h u (List.mem_cons_of_mem _ hu)
    cases hskip : jgeIntJ m.lastMigrationVersion v with
    | true =>
      have hfilter : (v :: rest).filter (fun u => !jgeIntJ m.lastMigrationVersion u)
          = rest.filter (fun u => !jgeIntJ m.lastMigrationVersion u) := by
        simp [List.filter, hskip]
      simp only [migLoop, hcur, hskip, if_true, hfilter]
      exact ih s lmv tr el hm hrest
    | false =>
      have hpred : (!jgeIntJ m.lastMigrationVersion v) = true := by simp [hskip]
      obtain ⟨hsome, hfr⟩ := h v (List.mem_cons_self _ _) hpred
      obtain ⟨fns, hfns⟩ := Option.isSome_iff_exists.mp hsome
      have hvfns : versionFns t v = fns := by simp [versionFns, hfns]
      have hfilter : (v :: rest).filter (fun u => !jgeIntJ m.lastMigrationVersion u)
          = v :: rest.filter (fun u => !jgeIntJ m.lastMigrationVersion u) := by
        simp [List.filter, hskip]
      have hmc : (runFns fns s tr el).1.metaCache = some m := by
        rw [runFns_metaCache fns s tr el (hvfns ▸ hfr)]
        exact hm
      have hrec := ih (runFns fns s tr el).1 v (runFns fns s tr el).2.1
        (runFns fns s tr el).2.2 hmc hrest
      simp only [migLoop, hcur, hskip, Bool.false_eq_true, if_false, hfns, hfilter]
      refine ⟨hrec.1, hrec.2.1, ?_, ?_⟩
      · rw [hrec.2.2.1, runFns_trace, concatMap, hvfns, List.append_assoc]
      · rw [hrec.2.2.2]
        cases hr : rest.filter (fun u => !jgeIntJ m.lastMigrationVersion u) with
        | nil => rfl
        | cons y ys =>
          show lastD (y :: ys) v = lastD (v :: y :: ys) lmv
          exact lastD_default_irrel y ys v lmv

theorem migLoop_errLog_sub {t : MigTable} {j : Int} :
    ∀ (vs : List JNum) (s : DBState) (lmv : JNum) (tr el : List String) (x : String),
      x ∈ el → x ∈ (migLoop t j vs s lmv tr el).errLog := by
  intro vs
  induction vs with
  | nil => intro s lmv tr el x hx; exact hx
  | cons v rest ih =>
    intro s lmv tr el x hx
    cases hskip : jgeIntJ (currentLmv s j) v with
    | true =>
      simp only [migLoop, hskip, if_true]
      exact ih _ _ _ _ _ hx
    | false =>
      cases hfns : lookupKey t (jnumKey v) with
      | none => simpa [migLoop, hskip, hfns] using hx
      | some fns =>
        simp only [migLoop, hskip, Bool.false_eq_true, if_false, hfns]
        exact ih _ _ _ _ _ (runFns_errLog_sub fns s tr el x hx)

theorem migLoop_errLog_mem {t : MigTable} {j : Int} {m : DBInfo} :
    ∀ (vs : List JNum) (s : DBState) (lmv : JNum) (tr el : List String)
      {v₀ : JNum} {f₀ : MigFn},
      s.metaCache = some m →
      (∀ v ∈ vs, (!jgeIntJ m.lastMigrationVersion v) = true →
        (lookupKey t (jnumKey v)).isSome = true ∧ ∀ f ∈ versionFns t v, metaFrame f) →
      v₀ ∈ vs → (!jgeIntJ m.lastMigrationVersion v₀) = true →
      f₀ ∈ versionFns t v₀ → (∀ u, f₀.ok u = false) →
      f₀.name ∈ (migLoop t j vs s lmv tr el).errLog := by
  intro vs
  induction vs with
  | nil => intro s lmv tr el v₀ f₀ _ _ hv; cases hv
  | cons v rest ih =>
    intro s lmv tr el v₀ f₀ hm h hv₀ hpred₀ hf₀ hfail
    have hcur : currentLmv s j = m.lastMigrationVersion := by simp [currentLmv, hm]
    have hrest : ∀ u ∈ rest, (!jgeIntJ m.lastMigrationVersion u) = true →
        (lookupKey t (jnumKey u)).isSome = true ∧ ∀ f ∈ versionFns t u, metaFrame f :=
      fun u hu => h u (List.mem_cons_of_mem _ hu)
    rw [List.mem_cons] at hv₀
    cases hskip : jgeIntJ m.lastMigrationVersion v with
    | true =>
      have hne : v₀ ≠ v := by
        intro hh
        rw [hh, hskip] at hpred₀
        simp at hpred₀
      have hv₀' : v₀ ∈ rest := by
        rcases hv₀ with rfl | hv₀
        · exact absurd rfl hne
        · exact hv₀
      simp only [migLoop, hcur, hskip, if_true]
      exact ih _ _ _ _ hm hrest hv₀' hpred₀ hf₀ hfail
    | false =>
      have hpred : (!jgeIntJ m.lastMigrationVersion v) = true := by simp [hskip]
      obtain ⟨hsome, hfr⟩ := h v (List.mem_cons_self _ _) hpred
      obtain ⟨fns, hfns⟩ := Option.isSome_iff_exists.mp hsome
      have hvfns : versionFns t v = fns := by simp [versionFns, hfns]
      have hmc : (runFns fns s tr el).1.metaCache = some m := by
        rw [runFns_metaCache fns s tr el (hvfns ▸ hfr)]
        exact hm
      simp only [migLoop, hcur, hskip, Bool.false_eq_true, if_false, hfns]
      rcases hv₀ with rfl | hv₀
      · apply migLoop_errLog_sub
        exact runFns_errLog_mem fns s tr el (hvfns ▸ hf₀) hfail
      · exact ih _ _ _ _ hmc hrest hv₀ hpred₀ hf₀ hfail

/-! ### Order lemmas for the sorted version list -/

theorem jltNum_trans {a b c : JNum} (h1 : jltNum a b = true) (h2 : jltNum b c = true) :
    jltNum a c = true := by
  cases a with
  | none => simp [jltNum] at h1
  | some x =>
    cases b with
    | none => simp [jltNum] at h1
    | some y =>
      cases c with
      | none => simp [jltNum] at h2
      | some z =>
        simp [jltNum] at h1 h2 ⊢
        omega

theorem pairwise_insertNum {x : JNum} :
    ∀ {l : List JNum}, (∃ nx : Int, x = some nx) → (∀ v ∈ l, ∃ n : Int, v = some n) →
      x ∉ l → l.Pairwise (fun a b => jltNum a b = true) →
      (insertNum x l).Pairwise (fun a b => jltNum a b = true) := by
  intro l
  induction l with
  | nil => intro _ _ _ _; simp [insertNum]
  | cons y ys ih =>
    intro hx hl hnx hp
    rw [List.pairwise_cons] at hp
    by_cases hlt : jltNum x y = true
    · rw [insertNum, if_pos hlt]
      rw [List.pairwise_cons]
      constructor
      · intro z hz
        rw [List.mem_cons] at hz
        rcases hz with rfl | hz
        · exact hlt
        · exact jltNum_trans hlt (hp.1 z hz)
      · rw [List.pairwise_cons]
        exact hp
    · rw [insertNum, if_neg hlt]
      rw [List.pairwise_cons]
      constructor
      · intro z hz
        rw [mem_insertNum] at hz
        rcases hz with rfl | hz
        · obtain ⟨nx, rfl⟩ := hx
          obtain ⟨ny, rfl⟩ := hl y (List.mem_cons_self _ _)
          have hne : nx ≠ ny := by
            intro hh
            exact hnx (by simp [hh])
          simp [jltNum] at hlt ⊢
          omega
        · exact hp.1 z hz
      · exact ih hx (fun v hv => hl v (List.mem_cons_of_mem _ hv))
          (fun hc => hnx (List.mem_cons_of_mem _ hc)) hp.2

theorem pairwise_sort_aux :
    ∀ (l acc : List JNum),
      (∀ v ∈ l, ∃ n : Int, v = some n) → (∀ v ∈ acc, ∃ n : Int, v = some n) →
      (∀ v ∈ l, v ∉ acc) → l.Nodup →
      acc.Pairwise (fun a b => jltNum a b = true) →
      (l.foldl (fun a x => insertNum x a) acc).Pairwise (fun a b => jltNum a b = true) := by
  intro l
  induction l with
  | nil => intro acc _ _ _ _ hp; exact hp
  | cons x xs ih =>
    intro acc hl hacc hdisj hnd hp
    rw [List.nodup_cons] at hnd
    simp only [List.foldl_cons]
    apply ih
    · exact fun v hv => hl v (List.mem_cons_of_mem _ hv)
    · intro v hv
      rw [mem_insertNum] at hv
      rcases hv with rfl | hv
      · exact hl v (List.mem_cons_self _ _)
      · exact hacc v hv
    · intro v hv hin
      rw [mem_insertNum] at hin
      rcases hin with rfl | hin
      · exact hnd.1 hv
      · exact hdisj v (List.mem_cons_of_mem _ hv) hin
    · exact hnd.2
    · exact pairwise_insertNum (hl x (List.mem_cons_self _ _)) hacc
        (hdisj x (List.mem_cons_self _ _)) hp

theorem pairwise_jsSortNums {l : List JNum}
    (hl : ∀ v ∈ l, ∃ n : Int, v = some n) (hnd : l.Nodup) :
    (jsSortNums l).Pairwise (fun a b => jltNum a b = true) :=
  pairwise_sort_aux l [] hl (by simp) (by simp) hnd (by simp)

theorem lastD_mem {α : Type} : ∀ (l : List α) (d : α), l ≠ [] → lastD l d ∈ l := by
  intro l
  induction l with
  | nil => intro d h; exact absurd rfl h
  | cons y ys ih =>
    intro d _
    cases ys with
    | nil => exact List.mem_singleton.mpr rfl
    | cons z zs =>
      show lastD (z :: zs) d ∈ y :: z :: zs
      exact List.mem_cons_of_mem _ (ih d (by simp))

theorem pairwise_lastD_ge :
    ∀ (l : List JNum) (d : JNum), l.Pairwise (fun a b => jltNum a b = true) →
      ∀ v ∈ l, v = lastD l d ∨ jltNum v (lastD l d) = true := by
  intro l
  induction l with
  | nil => intro d _ v hv; cases hv
  | cons y ys ih =>
    intro d hp v hv
    rw [List.pairwise_cons] at hp
    cases ys with
    | nil =>
      rw [List.mem_singleton] at hv
      exact Or.inl hv
    | cons z zs =>
      have hlast : lastD (y :: z :: zs) d = lastD (z :: zs) d := rfl
      rw [List.mem_cons] at hv
      rcases hv with rfl | hv
      · right
        rw [hlast]
        have hmem : lastD (z :: zs) d ∈ z :: zs := lastD_mem _ d (by simp)
        rcases ih d hp.2 (lastD (z :: zs) d) hmem with heq | hlt
        · exact hp.1 _ hmem
        · exact hp.1 _ hmem
      · rw [hlast]
        exact ih d hp.2 v hv

/-! ### Characterization of migrate on a canonically keyed table -/

/-- Every key of the table is the canonical decimal form of a strictly
positive integer, as a JS object literal like `{1: [...], 2: [...]}`
produces. -/
def canonicalKeys (t : MigTable) : Prop :=
  ∀ e ∈ t, ∃ n : Int, 1 ≤ n ∧ jsParseInt e.1 = some n ∧ jnumKey (some n) = e.1

theorem lookup_isSome_of_mem {α : Type} :
    ∀ {l : List (String × α)} {e : String × α}, e ∈ l → (lookupKey l e.1).isSome = true := by
  intro l
  induction l with
  | nil => intro e he; cases he
  | cons f rest ih =>
    intro e he
    rw [List.mem_cons] at he
    by_cases hk : f.1 = e.1
    · simp [lookupKey, hk]
    · rcases he with rfl | he
      · exact absurd rfl hk
      · simp [lookupKey, hk]
        exact ih he

theorem sortedTableVersions_mem {t : MigTable} (hkeys : canonicalKeys t) :
    ∀ v ∈ sortedTableVersions t, ∃ n : Int, v = some n ∧ 1 ≤ n ∧
      (lookupKey t (jnumKey v)).isSome = true := by
  intro v hv
  rw [sortedTableVersions, mem_jsSortNums, List.mem_map] at hv
  obtain ⟨k, hk, rfl⟩ := hv
  rw [List.mem_map] at hk
  obtain ⟨e, he, rfl⟩ := hk
  obtain ⟨n, hpos, hparse, hkey⟩ := hkeys e he
  refine ⟨n, hparse, hpos, ?_⟩
  rw [hparse, hkey]
  exact lookup_isSome_of_mem he

theorem sortedTableVersions_pairwise {t : MigTable} (hkeys : canonicalKeys t)
    (hnodup : (t.map Prod.fst).Nodup) :
    (sortedTableVersions t).Pairwise (fun a b => jltNum a b = true) := by
  apply pairwise_jsSortNums
  · intro v hv
    rw [List.mem_map] at hv
    obtain ⟨k, hk, rfl⟩ := hv
    rw [List.mem_map] at hk
    obtain ⟨e, he, rfl⟩ := hk
    obtain ⟨n, _, hparse, _⟩ := hkeys e he
    exact ⟨n, hparse⟩
  · apply List.Nodup.map_on _ hnodup
    intro k1 hk1 k2 hk2 hparse
    rw [List.mem_map] at hk1 hk2
    obtain ⟨e1, he1, rfl⟩ := hk1
    obtain ⟨e2, he2, rfl⟩ := hk2
    obtain ⟨n1, _, hp1, hj1⟩ := hkeys e1 he1
    obtain ⟨n2, _, hp2, hj2⟩ := hkeys e2 he2
    rw [hp1, hp2] at hparse
    rw [← hj1, ← hj2, hparse]

theorem migrate_valid_eq {s : DBState} {m : DBInfo} (hm : s.metaCache = some m)
    {t : MigTable} (hpos : ∀ e ∈ t, ∃ n : Int, jsParseInt e.1 = some n ∧ 1 ≤ n) :
    migrate (some t) s =
      (if (migLoop t m.lastMigrationVersion (sortedTableVersions t) s (some 0) [] []).threw then
        ⟨(migLoop t m.lastMigrationVersion (sortedTableVersions t) s (some 0) [] []).state,
         (migLoop t m.lastMigrationVersion (sortedTableVersions t) s (some 0) [] []).trace,
         (migLoop t m.lastMigrationVersion (sortedTableVersions t) s (some 0) [] []).errLog,
         false⟩
      else
        ⟨(if jsTruthyNum (migLoop t m.lastMigrationVersion (sortedTableVersions t) s (some 0) [] []).lmv then
            putMeta (migLoop t m.lastMigrationVersion (sortedTableVersions t) s (some 0) [] []).state
              ⟨(migLoop t m.lastMigrationVersion (sortedTableVersions t) s (some 0) [] []).lmv, none⟩
          else (migLoop t m.lastMigrationVersion (sortedTableVersions t) s (some 0) [] []).state),
         (migLoop t m.lastMigrationVersion (sortedTableVersions t) s (some 0) [] []).trace,
         (migLoop t m.lastMigrationVersion (sortedTableVersions t) s (some 0) [] []).errLog,
         true⟩) := by
  have hval := validate_passed_of_pos (l := t.map Prod.fst) (by
    intro k hk
    rw [List.mem_map] at hk
    obtain ⟨e, he, rfl⟩ := hk
    exact hpos e he)
  simp only [migrate, getMeta_cached hm, hval, Bool.not_true, Bool.false_eq_true, if_false]
  rfl

theorem valid_table_loop_hyp {t : MigTable} (hkeys : canonicalKeys t)
    (hframe : ∀ e ∈ t, ∀ f ∈ e.2, metaFrame f) (lastV : Int) :
    ∀ v ∈ sortedTableVersions t, (!jgeIntJ lastV v) = true →
      (lookupKey t (jnumKey v)).isSome = true ∧ ∀ f ∈ versionFns t v, metaFrame f := by
  intro v hv _
  obtain ⟨n, rfl, _, hsome⟩ := sortedTableVersions_mem hkeys v hv
  refine ⟨hsome, ?_⟩
  intro f hf
  obtain ⟨fns, hfns⟩ := Option.isSome_iff_exists.mp hsome
  rw [versionFns, hfns] at hf
  simp only [Option.getD_some] at hf
  exact hframe _ (lookupKey_mem hfns) f hf

theorem migrate_valid_main {s : DBState} {m : DBInfo} (hm : s.metaCache = some m)
    {t : MigTable} (hkeys : canonicalKeys t) (hnodup : (t.map Prod.fst).Nodup)
    (hframe : ∀ e ∈ t, ∀ f ∈ e.2, metaFrame f) :
    (migrate (some t) s).ok = true ∧
    (migrate (some t) s).trace = plannedTrace t m.lastMigrationVersion ∧
    (migrate (some t) s).errLog =
      (migLoop t m.lastMigrationVersion (sortedTableVersions t) s (some 0) [] []).errLog ∧
    (newVersions t m.lastMigrationVersion).Pairwise (fun a b => jltNum a b = true) ∧
    (∀ v ∈ newVersions t m.lastMigrationVersion,
      ∃ n : Int, v = some n ∧ m.lastMigrationVersion < n ∧ 1 ≤ n) ∧
    (newVersions t m.lastMigrationVersion = [] → migrate (some t) s = ⟨s, [], [], true⟩) ∧
    (newVersions t m.lastMigrationVersion ≠ [] → ∃ n : Int,
      lastD (newVersions t m.lastMigrationVersion) (some 0) = some n ∧
      (∀ v ∈ newVersions t m.lastMigrationVersion, jgeIntJ n v = true) ∧
      (migrate (some t) s).state.metaCache = some ⟨n, m.currUser⟩ ∧
      (migrate (some t) s).state.metaStore = some ⟨n, m.currUser⟩) := by
  have hpos : ∀ e ∈ t, ∃ n : Int, jsParseInt e.1 = some n ∧ 1 ≤ n := by
    intro e he
    obtain ⟨n, hp, hparse, _⟩ := hkeys e he
    exact ⟨n, hparse, hp⟩
  have hH := valid_table_loop_hyp hkeys hframe m.lastMigrationVersion
  have hspec := migLoop_spec (t := t) (j := m.lastMigrationVersion) (m := m)
    (sortedTableVersions t) s (some 0) [] [] hm hH
  have hnvdef : (sortedTableVersions t).filter (fun v => !jgeIntJ m.lastMigrationVersion v)
      = newVersions t m.lastMigrationVersion := rfl
  rw [hnvdef] at hspec
  have hnvmem : ∀ v ∈ newVersions t m.lastMigrationVersion,
      ∃ n : Int, v = some n ∧ m.lastMigrationVersion < n ∧ 1 ≤ n := by
    intro v hv
    rw [newVersions, List.mem_filter] at hv
    obtain ⟨n, rfl, hp, _⟩ := sortedTableVersions_mem hkeys v hv.1
    refine ⟨n, rfl, ?_, hp⟩
    have := hv.2
    simp [jgeIntJ] at this
    omega
  have hpw : (newVersions t m.lastMigrationVersion).Pairwise (fun a b => jltNum a b = true) :=
    List.Pairwise.sublist (List.filter_sublist _) (sortedTableVersions_pairwise hkeys hnodup)
  rw [migrate_valid_eq hm hpos]
  rw [hspec.1]
  simp only [Bool.false_eq_true, if_false]
  refine ⟨trivial, ?_, trivial, hpw, hnvmem, ?_, ?_⟩
  · rw [hspec.2.2.1, List.nil_append]
    rfl
  · intro hempty
    have hall : ∀ v ∈ sortedTableVersions t, jgeIntJ m.lastMigrationVersion v = true := by
      intro v hv
      have := List.filter_eq_nil_iff.mp hempty v hv
      simpa using this
    rw [migLoop_all_skipped (sortedTableVersions t) s (some 0) [] [] hm hall]
    rfl
  · intro hne
    have hmemlast := lastD_mem (newVersions t m.lastMigrationVersion) (some 0) hne
    obtain ⟨n, hlast, hNn, h1n⟩ := hnvmem _ hmemlast
    refine ⟨n, hlast, ?_, ?_, ?_⟩
    · intro v hv
      obtain ⟨k, rfl, _, _⟩ := hnvmem v hv
      rcases pairwise_lastD_ge _ (some 0) hpw _ hv with heq | hlt
      · rw [heq, hlast]
        simp [jgeIntJ]
      · rw [hlast] at hlt
        simp [jltNum] at hlt
        simp [jgeIntJ]
        omega
    · have htr : jsTruthyNum
          (migLoop t m.lastMigrationVersion (sortedTableVersions t) s (some 0) [] []).lmv
            = true := by
        rw [hspec.2.2.2, hlast]
        simp [jsTruthyNum]
        omega
      simp only [htr, if_true, putMeta, hspec.2.1]
      rw [hspec.2.2.2, hlast]
      simp [assignInfo]
    · have htr : jsTruthyNum
          (migLoop t m.lastMigrationVersion (sortedTableVersions t) s (some 0) [] []).lmv
            = true := by
        rw [hspec.2.2.2, hlast]
        simp [jsTruthyNum]
        omega
      simp only [htr, if_true, putMeta, hspec.2.1]
      rw [hspec.2.2.2, hlast]
      simp [assignInfo]

/-! ### Claim C3: new versions apply in ascending order -/

/-- C3: on an initialized store with cached and stored meta `m` and a
valid (canonically keyed, duplicate-free) migration table whose functions
leave the meta record alone, `migrate` succeeds; its execution trace is
exactly the functions of the versions strictly greater than the stored
`lastMigrationVersion`, taken in ascending version order and in list
order within each version; and when at least one version is processed,
the persisted `lastMigrationVersion` equals the highest version processed
in the run. -/
theorem migrate_applies_new_versions_in_order {s : DBState} {m : DBInfo}
    (hm : s.metaCache = some m) (_hms : s.metaStore = some m) {t : MigTable}
    (hkeys : canonicalKeys t) (hnodup : (t.map Prod.fst).Nodup)
    (hframe : ∀ e ∈ t, ∀ f ∈ e.2, metaFrame f) :
    (migrate (some t) s).ok = true ∧
    (migrate (some t) s).trace = plannedTrace t m.lastMigrationVersion ∧
    (newVersions t m.lastMigrationVersion).Pairwise (fun a b => jltNum a b = true) ∧
    (∀ v ∈ newVersions t m.lastMigrationVersion,
      ∃ n : Int, v = some n ∧ m.lastMigrationVersion < n) ∧
    (newVersions t m.lastMigrationVersion = [] → migrate (some t) s = ⟨s, [], [], true⟩) ∧
    (newVersions t m.lastMigrationVersion ≠ [] → ∃ n : Int,
      lastD (newVersions t m.lastMigrationVersion) (some 0) = some n ∧
      (∀ v ∈ newVersions t m.lastMigrationVersion, jgeIntJ n v = true) ∧
      (migrate (some t) s).state.metaCache = some ⟨n, m.currUser⟩ ∧
      (migrate (some t) s).state.metaStore = some ⟨n, m.currUser⟩) := by
  obtain ⟨hok, htrace, _, hpw, hmem, hempty, hne⟩ := migrate_valid_main hm hkeys hnodup hframe
  exact ⟨hok, htrace, hpw,
    fun v hv => (hmem v hv).imp (fun n hn => ⟨hn.1, hn.2.1⟩), hempty, hne⟩

/-- Shared concrete migration functions, mirroring the spec's ordering
example `{1: [f1, f2], 2: [f3]}` (with `f3` reporting failure). -/
def migF1 : MigFn := ⟨"f1", fun u => u, fun _ => true⟩

def migF2 : MigFn := ⟨"f2", fun u => u, fun _ => true⟩

def migF3 : MigFn := ⟨"f3", fun u => u, fun _ => false⟩

def exampleTable : MigTable := [("1", [migF1, migF2]), ("2", [migF3])]

theorem exampleTable_canonical : canonicalKeys exampleTable := by
  intro e he
  rw [exampleTable, List.mem_cons] at he
  rcases he with rfl | he
  · exact ⟨1, by decide⟩
  · rw [List.mem_singleton] at he
    subst he
    exact ⟨2, by decide⟩

theorem exampleTable_frame : ∀ e ∈ exampleTable, ∀ f ∈ e.2, metaFrame f := by
  intro e he f hf
  rw [exampleTable, List.mem_cons] at he
  rcases he with rfl | he
  · rw [List.mem_cons] at hf
    rcases hf with rfl | hf
    · exact fun u => rfl
    · rw [List.mem_singleton] at hf
      subst hf
      exact fun u => rfl
  · rw [List.mem_singleton] at he
    subst he
    rw [List.mem_singleton] at hf
    subst hf
    exact fun u => rfl

/-- Witness for C3 at the spec's ordering example: from version 0 the run
executes `f1`, `f2`, `f3` in that order and persists version 2. -/
theorem migrate_applies_new_versions_in_order_witness :
    (migrate (some exampleTable) baseState).trace = ["f1", "f2", "f3"] ∧
    (migrate (some exampleTable) baseState).ok = true ∧
    (migrate (some exampleTable) baseState).state.metaStore = some ⟨2, "guest"⟩ := by
  obtain ⟨hok, htrace, hpw, hmem, hempty, hne⟩ :=
    migrate_applies_new_versions_in_order (s := baseState) (m := guestMeta) rfl rfl
      exampleTable_canonical (by decide) exampleTable_frame
  obtain ⟨n, hlast, hge, hmc, hms⟩ := hne (by decide)
  have h2 : lastD (newVersions exampleTable guestMeta.lastMigrationVersion) (some 0)
      = some 2 := by decide
  rw [h2] at hlast
  have hn : n = 2 := (Option.some.inj hlast).symm
  subst hn
  refine ⟨?_, hok, hms⟩
  rw [htrace]
  decide

/-! ### Claim C5: a failing migration function does not halt the run -/

/-- C5: under the same valid-table conditions, if some migration function
of a to-be-applied version always reports failure, `migrate` still
executes the full planned trace — every remaining function of that
version and every remaining version, in order — still persists
`lastMigrationVersion` as the highest version processed, still returns
`true`, and merely logs the failing function's name. -/
theorem migrate_failure_logged_not_halting {s : DBState} {m : DBInfo}
    (hm : s.metaCache = some m) (_hms : s.metaStore = some m) {t : MigTable}
    (hkeys : canonicalKeys t) (hnodup : (t.map Prod.fst).Nodup)
    (hframe : ∀ e ∈ t, ∀ f ∈ e.2, metaFrame f)
    (v₀ : JNum) (f₀ : MigFn)
    (hv₀ : v₀ ∈ newVersions t m.lastMigrationVersion)
    (hf₀ : f₀ ∈ versionFns t v₀) (hfail : ∀ u, f₀.ok u = false) :
    (migrate (some t) s).ok = true ∧
    (migrate (some t) s).trace = plannedTrace t m.lastMigrationVersion ∧
    f₀.name ∈ (migrate (some t) s).errLog ∧
    (∃ n : Int, lastD (newVersions t m.lastMigrationVersion) (some 0) = some n ∧
      (∀ v ∈ newVersions t m.lastMigrationVersion, jgeIntJ n v = true) ∧
      (migrate (some t) s).state.metaCache = some ⟨n, m.currUser⟩ ∧
      (migrate (some t) s).state.metaStore = some ⟨n, m.currUser⟩) := by
  obtain ⟨hok, htrace, herr, _, _, _, hne⟩ := migrate_valid_main hm hkeys hnodup hframe
  have hv₀' : v₀ ∈ sortedTableVersions t ∧ (!jgeIntJ m.lastMigrationVersion v₀) = true := by
    have := hv₀
    rw [newVersions, List.mem_filter] at this
    exact this
  have hmem₀ := migLoop_errLog_mem (t := t) (j := m.lastMigrationVersion) (m := m)
    (sortedTableVersions t) s (some 0) [] [] hm
    (valid_table_loop_hyp hkeys hframe m.lastMigrationVersion)
    hv₀'.1 hv₀'.2 hf₀ hfail
  obtain ⟨n, hlast, hge, hmc, hms⟩ := hne (List.ne_nil_of_mem hv₀)
  refine ⟨hok, htrace, ?_, n, hlast, hge, hmc, hms⟩
  rw [herr]
  exact hmem₀

/-- Witness for C5: `f3` (which always reports failure) is logged, yet
the run completes, executes all of `f1`, `f2`, `f3`, and persists
version 2. -/
theorem migrate_failure_logged_not_halting_witness :
    (migrate (some exampleTable) baseState).ok = true ∧
    "f3" ∈ (migrate (some exampleTable) baseState).errLog ∧
    (migrate (some exampleTable) baseState).trace
      = plannedTrace exampleTable guestMeta.lastMigrationVersion ∧
    (migrate (some exampleTable) baseState).state.metaStore = some ⟨2, "guest"⟩ := by
  obtain ⟨hok, htrace, herrmem, n, hlast, hge, hmc, hms⟩ :=
    migrate_failure_logged_not_halting (s := baseState) (m := guestMeta) rfl rfl
      exampleTable_canonical (by decide) exampleTable_frame
      (some 2) migF3 (by decide)
      (List.mem_singleton.mpr rfl) (fun u => rfl)
  have h2 : lastD (newVersions exampleTable guestMeta.lastMigrationVersion) (some 0)
      = some 2 := by decide
  rw [h2] at hlast
  have hn : n = 2 := (Option.some.inj hlast).symm
  subst hn
  exact ⟨hok, herrmem, htrace, hms⟩

/-! ### Claim C6: the public-operation machine -/

/-- A migration function that touches neither the cached nor the
persisted meta record. -/
def preservesMeta (f : MigFn) : Prop :=
  ∀ u, (f.run u).metaCache = u.metaCache ∧ (f.run u).metaStore = u.metaStore

/-- One public operation of the class, with any external inputs (the
fresh UUID a `getInstallId` call would draw) supplied as data. -/
inductive Op where
  | put (k : String) (v : Obj)
  | get (k : String)
  | cacheGet (k : String)
  | del (k : String)
  | update (k : String) (p : Obj)
  | putMeta (p : PartialDBInfo)
  | getMeta
  | getInstallId (uuid : String)
  | getCache
  | purgeCache
  | migrate (t? : Option MigTable)

/-- The state transition of one public operation. -/
def stepOp (s : DBState) : Op → DBState
  | Op.put k v => (put s k v).1
  | Op.get k => (get s k).1
  | Op.cacheGet _ => s
  | Op.del k => (del s k).1
  | Op.update k p => (update s k p).1
  | Op.putMeta p => putMeta s p
  | Op.getMeta => (getMeta s).1
  | Op.getInstallId uuid => (getInstallId s uuid).1
  | Op.getCache => s
  | Op.purgeCache => purgeCache s
  | Op.migrate t? => (migrate t? s).state

def runOps (s : DBState) : List Op → DBState
  | [] => s
  | op :: ops => runOps (stepOp s op) ops

/-- Operations in scope for the invariant: direct `putMeta` calls are
excluded, and migration tables carry only meta-preserving functions. -/
def metaSafeOp : Op → Prop
  | Op.putMeta _ => False
  | Op.migrate (some t) => ∀ e ∈ t, ∀ f ∈ e.2, preservesMeta f
  | _ => True

theorem runFns_meta_pres : ∀ (fns : List MigFn) (s : DBState) (tr el : List String),
    (∀ f ∈ fns, preservesMeta f) →
    (runFns fns s tr el).1.metaCache = s.metaCache ∧
    (runFns fns s tr el).1.metaStore = s.metaStore := by
  intro fns
  induction fns with
  | nil => intro s tr el _; exact ⟨rfl, rfl⟩
  | cons f rest ih =>
    intro s tr el h
    have hf := h f (List.mem_cons_self _ _) s
    rw [runFns]
    obtain ⟨ih1, ih2⟩ := ih (f.run s) (tr ++ [f.name])
      (if f.ok s then el else el ++ [f.name]) (fun g hg => h g (List.mem_cons_of_mem _ hg))
    exact ⟨ih1.trans hf.1, ih2.trans hf.2⟩

theorem migLoop_meta_pres {t : MigTable} {j : Int} {m : DBInfo}
    (hfr : ∀ e ∈ t, ∀ f ∈ e.2, preservesMeta f) :
    ∀ (vs : List JNum) (s : DBState) (lmv : JNum) (tr el : List String),
      s.metaCache = some m → s.metaStore = some m →
      (lmv = some 0 ∨ lmv = none ∨ ∃ k : Int, lmv = some k ∧ m.lastMigrationVersion < k) →
      (migLoop t j vs s lmv tr el).state.metaCache = some m ∧
      (migLoop t j vs s lmv tr el).state.metaStore = some m ∧
      ((migLoop t j vs s lmv tr el).lmv = some 0 ∨
        (migLoop t j vs s lmv tr el).lmv = none ∨
        ∃ k : Int, (migLoop t j vs s lmv tr el).lmv = some k ∧
          m.lastMigrationVersion < k) := by
  intro vs
  induction vs with
  | nil => intro s lmv tr el hm hms hl; exact ⟨hm, hms, hl⟩
  | cons v rest ih =>
    intro s lmv tr el hm hms hl
    have hcur : currentLmv s j = m.lastMigrationVersion := by simp [currentLmv, hm]
    cases hskip : jgeIntJ m.lastMigrationVersion v with
    | true =>
      simp only [migLoop, hcur, hskip, if_true]
      exact ih s lmv tr el hm hms hl
    | false =>
      cases hfns : lookupKey t (jnumKey v) with
      | none =>
        simp only [migLoop, hcur, hskip, Bool.false_eq_true, if_false, hfns]
        exact ⟨hm, hms, hl⟩
      | some fns =>
        have hpres := runFns_meta_pres fns s tr el
          (fun f hf => hfr _ (lookupKey_mem hfns) f hf)
        have hv : v = some 0 ∨ v = none ∨
            ∃ k : Int, v = some k ∧ m.lastMigrationVersion < k := by
          cases v with
          | none => exact Or.inr (Or.inl rfl)
          | some k =>
            simp [jgeIntJ] at hskip
            exact Or.inr (Or.inr ⟨k, rfl, hskip⟩)
        simp only [migLoop, hcur, hskip, Bool.false_eq_true, if_false, hfns]
        exact ih _ v _ _ (hpres.1.trans hm) (hpres.2.trans hms) hv

theorem migrate_meta_safe {s : DBState} {m : DBInfo}
    (hm : s.metaCache = some m) (hms : s.metaStore = some m) (t? : Option MigTable)
    (hfr : ∀ t, t? = some t → ∀ e ∈ t, ∀ f ∈ e.2, preservesMeta f) :
    ∃ m' : DBInfo, (migrate t? s).state.metaCache = some m' ∧
      (migrate t? s).state.metaStore = some m' ∧
      m.lastMigrationVersion ≤ m'.lastMigrationVersion := by
  cases t? with
  | none => exact ⟨m, hm, hms, le_refl _⟩
  | some t =>
    simp only [migrate, getMeta_cached hm]
    cases hp : (validateMigrationVersionNumbers (t.map Prod.fst)).passed with
    | false =>
      simp only [hp, Bool.not_false, if_true]
      exact ⟨m, hm, hms, le_refl _⟩
    | true =>
      simp only [hp, Bool.not_true, Bool.false_eq_true, if_false]
      have hloop := migLoop_meta_pres (j := m.lastMigrationVersion) (hfr t rfl)
        (validateMigrationVersionNumbers (t.map Prod.fst)).sortedVersions s (some 0) [] []
        hm hms (Or.inl rfl)
      cases hthrew : (migLoop t m.lastMigrationVersion
          (validateMigrationVersionNumbers (t.map Prod.fst)).sortedVersions
          s (some 0) [] []).threw with
      | true =>
        simp only [hthrew, if_true]
        exact ⟨m, hloop.1, hloop.2.1, le_refl _⟩
      | false =>
        simp only [hthrew, Bool.false_eq_true, if_false]
        cases htr : jsTruthyNum (migLoop t m.lastMigrationVersion
            (validateMigrationVersionNumbers (t.map Prod.fst)).sortedVersions
            s (some 0) [] []).lmv with
        | false =>
          simp only [htr, Bool.false_eq_true, if_false]
          exact ⟨m, hloop.1, hloop.2.1, le_refl _⟩
        | true =>
          simp only [htr, if_true]
          rcases hloop.2.2 with h0 | h0 | ⟨k, hk, hlt⟩
          · rw [h0] at htr
            simp [jsTruthyNum] at htr
          · rw [h0] at htr
            simp [jsTruthyNum] at htr
          · refine ⟨⟨k, m.currUser⟩, ?_, ?_, le_of_lt hlt⟩
            · simp [putMeta, hloop.1, hk, assignInfo]
            · simp [putMeta, hloop.1, hk, assignInfo]

theorem ensureInit_meta {s : DBState} {m : DBInfo} (hm : s.metaCache = some m) :
    (ensureInit s).metaCache = some m ∧ (ensureInit s).metaStore = s.metaStore := by
  unfold ensureInit
  by_cases hc : s.cache.isNone = true
  · rw [if_pos hc]
    simp [init, getMeta_cached hm, hm]
  · rw [if_neg hc]
    exact ⟨hm, rfl⟩

theorem put_meta {s : DBState} {m : DBInfo} (hm : s.metaCache = some m)
    (k : String) (v : Obj) :
    (put s k v).1.metaCache = some m ∧ (put s k v).1.metaStore = s.metaStore := by
  obtain ⟨h1, h2⟩ := ensureInit_meta hm
  by_cases hk : k = ""
  · have hthrow : put s k v = (s, false) := by simp [put, hk]
    rw [hthrow]
    exact ⟨hm, rfl⟩
  · simp only [put, hk, if_false, makeUserKey_cached h1]
    exact ⟨h1, h2⟩

theorem del_meta {s : DBState} {m : DBInfo} (hm : s.metaCache = some m) (k : String) :
    (del s k).1.metaCache = some m ∧ (del s k).1.metaStore = s.metaStore := by
  obtain ⟨h1, h2⟩ := ensureInit_meta hm
  by_cases hk : k = ""
  · have hthrow : del s k = (s, false) := by simp [del, hk]
    rw [hthrow]
    exact ⟨hm, rfl⟩
  · simp only [del, hk, if_false, makeUserKey_cached h1]
    exact ⟨h1, h2⟩

theorem update_meta {s : DBState} {m : DBInfo} (hm : s.metaCache = some m)
    (k : String) (p : Obj) :
    (update s k p).1.metaCache = some m ∧ (update s k p).1.metaStore = s.metaStore := by
  obtain ⟨h1, h2⟩ := ensureInit_meta hm
  by_cases hk : k = ""
  · have hthrow : update s k p = (s, false) := by simp [update, hk]
    rw [hthrow]
    exact ⟨hm, rfl⟩
  · simp only [update, hk, if_false, makeUserKey_cached h1]
    exact ⟨h1, h2⟩

theorem get_meta_fields {s : DBState} {m : DBInfo} (hm : s.metaCache = some m)
    (k : String) :
    (get s k).1.metaCache = some m ∧ (get s k).1.metaStore = s.metaStore := by
  obtain ⟨h1, h2⟩ := ensureInit_meta hm
  by_cases hk : k = ""
  · have hthrow : get s k = (s, GetResult.threw) := by simp [get, hk]
    rw [hthrow]
    exact ⟨hm, rfl⟩
  · simp only [get, hk, if_false, makeUserKey_cached h1]
    cases hlc : lookupKey ((ensureInit s).cache.getD []) (m.currUser ++ ":" ++ k) with
    | some v =>
      simp only [hlc]
      exact ⟨h1, h2⟩
    | none =>
      simp only [hlc]
      cases hls : lookupKey (ensureInit s).store (m.currUser ++ ":" ++ k) with
      | none =>
        simp only [hls]
        exact ⟨h1, h2⟩
      | some cell =>
        cases cell with
        | good o =>
          simp only [hls]
          exact ⟨h1, h2⟩
        | corrupt =>
          simp only [hls]
          exact ⟨h1, h2⟩
        | readErr =>
          simp only [hls]
          exact ⟨h1, h2⟩

theorem getInstallId_meta (s : DBState) (uuid : String) :
    (getInstallId s uuid).1.metaCache = s.metaCache ∧
    (getInstallId s uuid).1.metaStore = s.metaStore := by
  unfold getInstallId
  cases hci : s.installCache with
  | some id => exact ⟨rfl, rfl⟩
  | none =>
    cases hcs : s.installStore with
    | some id =>
      refine ⟨?_, ?_⟩ <;> by_cases hid : id = "" <;> simp [hid]
    | none => exact ⟨rfl, rfl⟩

theorem stepOp_meta {s : DBState} {m : DBInfo} (hm : s.metaCache = some m)
    (hms : s.metaStore = some m) (op : Op) (hop : metaSafeOp op) :
    ∃ m₁ : DBInfo, (stepOp s op).metaCache = some m₁ ∧
      (stepOp s op).metaStore = some m₁ ∧
      m.lastMigrationVersion ≤ m₁.lastMigrationVersion ∧
      ((∀ t?, op ≠ Op.migrate t?) → m₁ = m) := by
  cases op with
  | put k v =>
    obtain ⟨h1, h2⟩ := put_meta hm k v
    exact ⟨m, h1, h2.trans hms, le_refl _, fun _ => rfl⟩
  | get k =>
    obtain ⟨h1, h2⟩ := get_meta_fields hm k
    exact ⟨m, h1, h2.trans hms, le_refl _, fun _ => rfl⟩
  | cacheGet k => exact ⟨m, hm, hms, le_refl _, fun _ => rfl⟩
  | del k =>
    obtain ⟨h1, h2⟩ := del_meta hm k
    exact ⟨m, h1, h2.trans hms, le_refl _, fun _ => rfl⟩
  | update k p =>
    obtain ⟨h1, h2⟩ := update_meta hm k p
    exact ⟨m, h1, h2.trans hms, le_refl _, fun _ => rfl⟩
  | putMeta p => exact hop.elim
  | getMeta =>
    simp only [stepOp, getMeta_cached hm]
    exact ⟨m, hm, hms, le_refl _, fun _ => rfl⟩
  | getInstallId uuid =>
    obtain ⟨h1, h2⟩ := getInstallId_meta s uuid
    exact ⟨m, h1.trans hm, h2.trans hms, le_refl _, fun _ => rfl⟩
  | getCache => exact ⟨m, hm, hms, le_refl _, fun _ => rfl⟩
  | purgeCache => exact ⟨m, hm, hms, le_refl _, fun _ => rfl⟩
  | migrate t? =>
    cases t? with
    | none =>
      obtain ⟨m', a, b, c⟩ := migrate_meta_safe hm hms none (fun t ht => by cases ht)
      exact ⟨m', a, b, c, fun h => absurd rfl (h none)⟩
    | some t =>
      obtain ⟨m', a, b, c⟩ := migrate_meta_safe hm hms (some t) (fun t' ht' => by
        injection ht' with h
        subst h
        exact hop)
      exact ⟨m', a, b, c, fun h => absurd rfl (h (some t))⟩

/-- C6 counterexample: `putMeta` is a public operation; two direct
`putMeta` calls first advance the persisted `lastMigrationVersion` from
0 to 5 without any `migrate`, then regress it from 5 to 3 — so along this
sequence the persisted version is neither monotone nor only advanced by
`migrate`. -/
theorem putMeta_regresses_version_cex :
    (runOps baseState [Op.putMeta ⟨some 5, none⟩]).metaStore = some ⟨5, "guest"⟩ ∧
    (runOps baseState [Op.putMeta ⟨some 5, none⟩, Op.putMeta ⟨some 3, none⟩]).metaStore
      = some ⟨3, "guest"⟩ :=
  ⟨rfl, rfl⟩

/-- C6 (amended): across every sequence of public operations that does
not call `putMeta` directly and whose migration tables carry only
meta-preserving migration functions, starting from an initialized store,
the persisted `lastMigrationVersion` is monotonically non-decreasing, and
if the sequence contains no `migrate` at all the whole meta record is
unchanged — `migrate` is the only operation of the restricted alphabet
that moves it. -/
theorem lastMigrationVersion_monotone_without_putMeta :
    ∀ (ops : List Op) {s : DBState} {m : DBInfo},
      (∀ op ∈ ops, metaSafeOp op) →
      s.metaCache = some m → s.metaStore = some m →
      ∃ m' : DBInfo, (runOps s ops).metaCache = some m' ∧
        (runOps s ops).metaStore = some m' ∧
        m.lastMigrationVersion ≤ m'.lastMigrationVersion ∧
        ((∀ op ∈ ops, ∀ t?, op ≠ Op.migrate t?) → m' = m) := by
  intro ops
  induction ops with
  | nil =>
    intro s m _ hm hms
    exact ⟨m, hm, hms, le_refl _, fun _ => rfl⟩
  | cons op ops ih =>
    intro s m hsafe hm hms
    obtain ⟨m₁, h1, h2, h3, h4⟩ := stepOp_meta hm hms op (hsafe op (List.mem_cons_self _ _))
    obtain ⟨m', g1, g2, g3, g4⟩ := ih (fun o ho => hsafe o (List.mem_cons_of_mem _ ho)) h1 h2
    refine ⟨m', g1, g2, le_trans h3 g3, ?_⟩
    intro hnm
    rw [g4 (fun o ho t? => hnm o (List.mem_cons_of_mem _ ho) t?)]
    exact h4 (fun t? => hnm op (List.mem_cons_self _ _) t?)

/-- Witness for C6 (amended): a put, a meta-preserving migrate and a
cache purge from a fresh store. -/
theorem lastMigrationVersion_monotone_without_putMeta_witness :
    ∃ m' : DBInfo,
      (runOps baseState
        [Op.put "k" [("a", 1)], Op.migrate (some [("1", [migA])]), Op.purgeCache]).metaCache
          = some m' ∧
      (runOps baseState
        [Op.put "k" [("a", 1)], Op.migrate (some [("1", [migA])]), Op.purgeCache]).metaStore
          = some m' ∧
      guestMeta.lastMigrationVersion ≤ m'.lastMigrationVersion ∧
      ((∀ op ∈ [Op.put "k" [("a", 1)], Op.migrate (some [("1", [migA])]), Op.purgeCache],
          ∀ t?, op ≠ Op.migrate t?) → m' = guestMeta) :=
  lastMigrationVersion_monotone_without_putMeta _ (by
    intro op hop
    rw [List.mem_cons] at hop
    rcases hop with rfl | hop
    · exact trivial
    · rw [List.mem_cons] at hop
      rcases hop with rfl | hop
      · intro e he f hf
        rw [List.mem_singleton] at he
        subst he
        rw [List.mem_singleton] at hf
        subst hf
        exact fun u => ⟨rfl, rfl⟩
      · rw [List.mem_singleton] at hop
        subst hop
        exact trivial) rfl rfl

end KVDB
